import Mathlib

/-!
Shallow embedding of `src/trie.rs` (radix-16 Merkle-Patricia trie) and
verification of the specification claims about it.

Bytes are modelled as `Nat` (values `0..=255` in all reachable states),
byte strings as `List Nat`.  The `BTreeMap<Vec<u8>, Vec<u8>>` backing store
is modelled as an association list kept sorted by the byte-lexicographic
order that `Vec<u8>`'s `Ord` instance implements.  The blake2b-256 hash is
an external primitive; every definition and theorem is parameterised over
an arbitrary hash function `H : List Nat → List Nat`.
-/

/-- Byte-lexicographic strict order on byte strings, as implemented by
`Ord for Vec<u8>` in Rust: compare element-wise, a proper prefix is smaller. -/
def lexLt : List Nat → List Nat → Bool
  | [], [] => false
  | [], _ :: _ => true
  | _ :: _, [] => false
  | a :: as, b :: bs => a < b || (a == b && lexLt as bs)

/-- Byte-lexicographic non-strict order (`start..=end` range bounds use it). -/
def lexLe (a b : List Nat) : Bool :=
  lexLt a b || a == b

/-- Little-endian base-256 digits of a natural number (no trailing zeros). -/
def natLEBytes (n : Nat) : List Nat :=
  if n = 0 then [] else n % 256 :: natLEBytes (n / 256)
decreasing_by exact Nat.div_lt_self (Nat.pos_of_ne_zero (by assumption)) (by omega)

/-- SCALE compact encoding of a length `n`, as produced by
`parity_scale_codec::Compact<u32>`: one byte `n <<< 2` for `n < 2^6`, two
little-endian bytes of `(n <<< 2) ||| 1` for `n < 2^14`, four little-endian
bytes of `(n <<< 2) ||| 2` for `n < 2^30`, and big-integer mode otherwise. -/
def compactEncode (n : Nat) : List Nat :=
  if n < 64 then [n * 4]
  else if n < 16384 then [(n * 4 + 1) % 256, (n * 4 + 1) / 256]
  else if n < 1073741824 then
    [(n * 4 + 2) % 256, (n * 4 + 2) / 256 % 256,
     (n * 4 + 2) / 65536 % 256, (n * 4 + 2) / 16777216 % 256]
  else
    let bs := natLEBytes n
    ((bs.length - 4) * 4 + 3) :: bs

/-- SCALE encoding of a `Vec<u8>`: compact length followed by the bytes.
This is what `value.encode()` produces for the stored values. -/
def encodeScaleVec (v : List Nat) : List Nat :=
  compactEncode v.length ++ v

/-- The two bytes of `u16::to_le_bytes` (low byte first). -/
def u16le (n : Nat) : List Nat :=
  [n % 256, n / 256 % 256]

/-- Concatenation of a list of byte strings. -/
def catLists (ls : List (List Nat)) : List Nat :=
  ls.foldr (fun a b => a ++ b) []

/-- The nibble sequence of a byte string, high nibble of each byte first. -/
def nibblesOf (bs : List Nat) : List Nat :=
  bs.foldr (fun b acc => b / 16 :: b % 16 :: acc) []

/-- Longest common prefix of two nibble sequences. -/
def lcp2 : List Nat → List Nat → List Nat
  | a :: as, b :: bs => if a = b then a :: lcp2 as bs else []
  | _, _ => []

/-- The trie: a `BTreeMap<Vec<u8>, Vec<u8>>` of entries, modelled as an
association list sorted by `lexLt` on the keys. -/
structure Trie where
  entries : List (List Nat × List Nat)
deriving DecidableEq

/-- Sorted-insert with overwrite, the `BTreeMap::insert` upsert semantics. -/
def insertEntry (key value : List Nat) : List (List Nat × List Nat) → List (List Nat × List Nat)
  | [] => [(key, value)]
  | (k, v) :: rest =>
    if lexLt key k then (key, value) :: (k, v) :: rest
    else if key = k then (key, value) :: rest
    else (k, v) :: insertEntry key value rest

/-- `Trie::new`: the empty trie. -/
def Trie.new : Trie := ⟨[]⟩

/-- `Trie::insert`: inserts a new entry in the trie (upsert). -/
def Trie.insert (t : Trie) (key value : List Nat) : Trie :=
  ⟨insertEntry key value t.entries⟩

/-- `Trie::is_empty`. -/
def Trie.isEmpty (t : Trie) : Bool :=
  t.entries.isEmpty

/-- `Trie::clear`: removes all the elements from the trie. -/
def Trie.clear (_t : Trie) : Trie := ⟨[]⟩

/-- `Trie::remove_prefix(prefix)`: if `prefix` is empty this clears the trie;
otherwise it walks `entries.range(prefix..)` (on the sorted entry list: the
entries whose key is `lexLe`-at least `prefix`, in order), takes keys while
they start with `prefix`, and removes the collected keys. -/
def Trie.removePre (t : Trie) (pre : List Nat) : Trie :=
  if pre = [] then t.clear
  else
    let toRemove :=
      (((t.entries.filter fun kv => lexLe pre kv.1).takeWhile
          fun kv => pre.isPrefixOf kv.1).map Prod.fst)
    ⟨t.entries.filter fun kv => !(toRemove.contains kv.1)⟩

/-- Builds a trie by inserting a list of entries in order. -/
def Trie.fromList (l : List (List Nat × List Nat)) : Trie :=
  l.foldl (fun t kv => t.insert kv.1 kv.2) Trie.new

/-- `BTreeMap::get` on the entry list. -/
def lookupEntry (t : Trie) (key : List Nat) : Option (List Nat) :=
  (t.entries.find? fun kv => kv.1 == key).map fun kv => kv.2

/-- `BTreeMap::contains_key` on the entry list. -/
def containsKey (t : Trie) (key : List Nat) : Bool :=
  (lookupEntry t key).isSome

/-- Length of the longest stored key (0 for the empty trie). -/
def maxKeyLen (t : Trie) : Nat :=
  t.entries.foldl (fun m kv => max m kv.1.length) 0

/-- Nibble depth of a node address: `2*len(key)`, plus 1 if the extra nibble
is present. -/
def nibbleDepth (key : List Nat) (en : Option Nat) : Nat :=
  2 * key.length + match en with | some _ => 1 | none => 0

/-- `Trie::node_has_children`: true iff `entries.range(key‖0 ..= key‖255)`
is non-empty.  The `key_extra_nibble` parameter is ignored, exactly as in the
source, whose function body never reads it. -/
def nodeHasChildren (t : Trie) (key : List Nat) (_keyExtraNibble : Option Nat) : Bool :=
  t.entries.any fun kv => lexLe (key ++ [0]) kv.1 && lexLe kv.1 (key ++ [255])

/-- The `has_stored_value` test of `Trie::node_header`:
`key_extra_nibble.is_none() && self.entries.contains_key(key)`. -/
def hasStoredValue (t : Trie) (key : List Nat) (en : Option Nat) : Bool :=
  en.isNone && containsKey t key

/-- The stored value used by `Trie::node_subvalue`:
`entries.get(key).cloned().unwrap_or(Vec::new())` when the extra nibble is
absent, `Vec::new()` otherwise. -/
def storedValueAt (t : Trie) (key : List Nat) (en : Option Nat) : List Nat :=
  if en.isNone then (lookupEntry t key).getD [] else []

/-- `Trie::node_children_bitmap`: for an address with an extra nibble, bit
`15 - n` is set iff `node_has_children(key ‖ [(extra <<< 4) ||| n], None)`;
without an extra nibble, bit `15 - n` is set iff
`node_has_children(key, Some n)`. -/
def nodeChildrenBitmap (t : Trie) (key : List Nat) (en : Option Nat) : Nat :=
  match en with
  | some e =>
    (List.range 16).foldl
      (fun out n =>
        if nodeHasChildren t (key ++ [(e <<< 4) ||| n]) none then out ||| (1 <<< (15 - n))
        else out) 0
  | none =>
    (List.range 16).foldl
      (fun out n =>
        if nodeHasChildren t key (some n) then out ||| (1 <<< (15 - n)) else out) 0

/-- `Trie::node_partial_key_nibbles`.  The source function is an explicit
stub: its body is `Vec::new()  // TODO: FIXME: stub`, so it returns the
empty nibble sequence for every address. -/
def nodePartialKeyNibbles (_t : Trie) (_key : List Nat) (_en : Option Nat) : List Nat :=
  []

/-- Packing of an even-length nibble sequence: `(chunk[0] << 4) | chunk[1]`
per pair. -/
def packNibblesEven : List Nat → List Nat
  | a :: b :: rest => ((a <<< 4) ||| b) :: packNibblesEven rest
  | _ => []

/-- The partial-key packing of `Trie::node_value`: pairs of nibbles packed
high-first; for an odd count the first output byte holds the first nibble
alone and the remaining nibbles are packed in pairs. -/
def packNibbles (ns : List Nat) : List Nat :=
  if ns.length % 2 = 0 then packNibblesEven ns
  else
    match ns with
    | [] => []
    | a :: rest => a :: packNibblesEven rest

/-- The `two_msb` kind bits of `Trie::node_header`. -/
def twoMsb (t : Trie) (key : List Nat) (en : Option Nat) : Nat :=
  match hasStoredValue t key en, nodeHasChildren t key en with
  | false, false => 0b00
  | true, false => 0b01
  | false, true => 0b10
  | true, true => 0b11

/-- The continuation bytes of the header for `pk_len - 63`: one byte `255`
while the remainder exceeds 255, then the final remainder byte. -/
def headerTail (n : Nat) : List Nat :=
  if 255 < n then 255 :: headerTail (n - 255) else [n]
decreasing_by omega

/-- The length encoding of `Trie::node_header`: a single byte
`(two_msb << 6) + pk_len` when `pk_len < 63`, otherwise
`(two_msb << 6) + 63` followed by the continuation bytes of `pk_len - 63`. -/
def headerEncode (m pkLen : Nat) : List Nat :=
  if 63 ≤ pkLen then ((m <<< 6) + 63) :: headerTail (pkLen - 63)
  else [(m <<< 6) + pkLen]

/-- `Trie::node_header`. -/
def nodeHeader (t : Trie) (key : List Nat) (en : Option Nat) : List Nat :=
  headerEncode (twoMsb t key en) (nodePartialKeyNibbles t key en).length

/-- The node value assembly of `Trie::node_value` given the subvalue bytes:
`node_header ++ packed partial key ++ subvalue`. -/
def prependHeaderPk (t : Trie) (key : List Nat) (en : Option Nat) (sv : List Nat) : List Nat :=
  nodeHeader t key en ++ packNibbles (nodePartialKeyNibbles t key en) ++ sv

/-- The reduction step of `Trie::merkle_value`: hash when the address is the
root (`key.is_empty() && key_extra_nibble.is_none()`) or the node value is at
least 32 bytes long, otherwise right-align the node value in a 32-byte
zero-filled buffer. -/
def reduceNode (H : List Nat → List Nat) (key : List Nat) (en : Option Nat)
    (nv : List Nat) : List Nat :=
  if (key.isEmpty && en.isNone) || decide (32 ≤ nv.length) then H nv
  else List.replicate (32 - nv.length) 0 ++ nv

/-- Sequences child computations in nibble order and concatenates their
bytes, as the `for extra2 in 0..16` / `for extra in 0..16` loops of
`Trie::node_subvalue` do.  `none` propagates fuel exhaustion.  Note that
`child_merkle_value.encode()` encodes a `[u8; 32]`, and SCALE encodes a
fixed-size array as the bare concatenation of its elements — the 32 bytes
are appended with no length prefix. -/
def optConcat (ns : List Nat) (g : Nat → Option (List Nat)) : Option (List Nat) :=
  match ns with
  | [] => some []
  | n :: rest =>
    match g n, optConcat rest g with
    | some c, some cs => some (c ++ cs)
    | _, _ => none

/-- Fuelled form of the mutually recursive
`Trie::merkle_value` → `Trie::node_value` → `Trie::node_subvalue` →
`Trie::merkle_value` computation.  One unit of fuel is consumed on each
recursion into the children; `none` means the fuel ran out.  The body of the
`fuel + 1` case is exactly `node_value` followed by the reduction step, with
`node_subvalue` inlined: the stored value is SCALE-encoded, and if the
children bitmap is zero it is the whole subvalue, otherwise the two
little-endian bitmap bytes, the 16 children merkle values in nibble order
and the encoded stored value are concatenated. -/
def merkleValueO (H : List Nat → List Nat) (t : Trie) :
    Nat → List Nat → Option Nat → Option (List Nat)
  | 0, _, _ => none
  | fuel + 1, key, en =>
    (if nodeChildrenBitmap t key en = 0 then
        some (encodeScaleVec (storedValueAt t key en))
      else
        (optConcat (List.range 16) fun n =>
            match en with
            | some e => merkleValueO H t fuel (key ++ [(e <<< 4) ||| n]) none
            | none => merkleValueO H t fuel key (some n)).map
          fun cs => u16le (nodeChildrenBitmap t key en) ++ cs ++
            encodeScaleVec (storedValueAt t key en)).map
      fun sv => reduceNode H key en (prependHeaderPk t key en sv)

/-- `Trie::node_subvalue`, fuelled: the fuel is spent on the recursive
`merkle_value` calls for the children. -/
def nodeSubvalueO (H : List Nat → List Nat) (t : Trie) (fuel : Nat)
    (key : List Nat) (en : Option Nat) : Option (List Nat) :=
  if nodeChildrenBitmap t key en = 0 then
    some (encodeScaleVec (storedValueAt t key en))
  else
    (optConcat (List.range 16) fun n =>
        match en with
        | some e => merkleValueO H t fuel (key ++ [(e <<< 4) ||| n]) none
        | none => merkleValueO H t fuel key (some n)).map
      fun cs => u16le (nodeChildrenBitmap t key en) ++ cs ++
        encodeScaleVec (storedValueAt t key en)

/-- `Trie::node_value`, fuelled: header, packed partial key, subvalue. -/
def nodeValueO (H : List Nat → List Nat) (t : Trie) (fuel : Nat)
    (key : List Nat) (en : Option Nat) : Option (List Nat) :=
  (nodeSubvalueO H t fuel key en).map (prependHeaderPk t key en)

/-- Fuel that lets the children recursion of any node run to completion:
one more than twice the longest stored key length. -/
def childFuel (t : Trie) : Nat :=
  2 * maxKeyLen t + 1

/-- `Trie::merkle_value` as a total function: the fuelled computation run
with sufficient fuel for the store's contents. -/
def merkleValue (H : List Nat → List Nat) (t : Trie) (key : List Nat)
    (en : Option Nat) : List Nat :=
  (merkleValueO H t (childFuel t + 1) key en).getD []

/-- `Trie::root_merkle_value`: `merkle_value(&[], None)`. -/
def rootMerkleValue (H : List Nat → List Nat) (t : Trie) : List Nat :=
  merkleValue H t [] none

/-- `Trie::node_value` as a total function. -/
def nodeValue (H : List Nat → List Nat) (t : Trie) (key : List Nat)
    (en : Option Nat) : List Nat :=
  (nodeValueO H t (childFuel t) key en).getD []

/-- `Trie::node_subvalue` as a total function. -/
def nodeSubvalue (H : List Nat → List Nat) (t : Trie) (key : List Nat)
    (en : Option Nat) : List Nat :=
  (nodeSubvalueO H t (childFuel t) key en).getD []

/-- The merkle value of the child of a node at nibble `n`: the address the
two children loops of `Trie::node_subvalue` recurse into. -/
def childMerkleValue (H : List Nat → List Nat) (t : Trie) (key : List Nat)
    (en : Option Nat) (n : Nat) : List Nat :=
  match en with
  | some e => merkleValue H t (key ++ [(e <<< 4) ||| n]) none
  | none => merkleValue H t key (some n)

/-- The node kind bits exactly as claim C6 words them: `00` for no value and
no children, `01` for value only, `10` for children only, `11` for both. -/
def specHeaderKind (hasVal hasChild : Bool) : Nat :=
  if hasVal then (if hasChild then 0b11 else 0b01)
  else (if hasChild then 0b10 else 0b00)

/-- The header bytes exactly as claim C6 words them: `(kind << 6) | L` for
`L < 63`; otherwise `(kind << 6) | 63`, then — after subtracting 63 — one
byte `255` for each time 255 can be subtracted while the remainder stays
above 255, and a final byte with the remainder. -/
def specHeaderBytes (kind L : Nat) : List Nat :=
  if L < 63 then [(kind <<< 6) ||| L]
  else
    let rest := L - 63
    let k := (rest - 1) / 255
    ((kind <<< 6) ||| 63) :: (List.replicate k 255 ++ [rest - 255 * k])

/-- Modelled from the spec: the partial key that `node_partial_key_nibbles`
is documented to produce but leaves unimplemented — the longest common
nibble-prefix shared by all stored keys extending the node address, beyond
the address's own nibble depth (a stored value terminating the path bounds
the common prefix because its extension tail is a prefix of all deeper
ones). -/
def specPartialKeyNibbles (t : Trie) (key : List Nat) (en : Option Nat) : List Nat :=
  let path := nibblesOf key ++ (match en with | some e => [e] | none => [])
  let tails :=
    ((t.entries.map fun kv => nibblesOf kv.1).filter fun nk => path.isPrefixOf nk).map
      fun nk => nk.drop path.length
  match tails with
  | [] => []
  | tl :: rest => rest.foldl lcp2 tl

/-- The subvalue exactly as claim C3 words it: for a node without children
the SCALE-encoded stored value; for a node with children the two little-
endian bitmap bytes, then for each nibble the *length-prefixed* encoding of
the child's merkle value, then the encoded stored value. -/
def claimSubvalueC3 (H : List Nat → List Nat) (t : Trie) (key : List Nat)
    (en : Option Nat) : List Nat :=
  if !(nodeHasChildren t key en) then encodeScaleVec (storedValueAt t key en)
  else
    u16le (nodeChildrenBitmap t key en) ++
      catLists ((List.range 16).map fun n =>
        encodeScaleVec (childMerkleValue H t key en n)) ++
      encodeScaleVec (storedValueAt t key en)

/-- A concrete 32-byte stand-in for the external blake2b-256 primitive, used
to instantiate witnesses and counterexamples. -/
def modelHash (data : List Nat) : List Nat :=
  (List.range 32).map fun i =>
    data.foldl (fun acc b => (acc * 31 + b + 1) % 256) ((i + data.length) % 256)

/-- Example trie `{0x12 ↦ 0x34}`. -/
def trieOne : Trie := Trie.fromList [([18], [52])]

/-- Example trie `{0x10 ↦ 0x00}`. -/
def trieTen : Trie := Trie.fromList [([16], [0])]

/-- Example trie with a 40-byte value, whose leaf node encoding is ≥ 32
bytes. -/
def trieBig : Trie := Trie.fromList [([1], List.replicate 40 7)]

/-- Example sorted trie with three entries, one key a strict byte-prefix of
another. -/
def trieThree : Trie := Trie.fromList [([1], [10]), ([1, 5], [11]), ([2], [12])]

/-! ### Lexicographic order lemmas -/

theorem lexLt_irrefl (a : List Nat) : lexLt a a = false := by
  induction a with
  | nil => rfl
  | cons x xs ih => simp [lexLt, ih]

theorem lexLe_refl (a : List Nat) : lexLe a a = true := by
  simp [lexLe]

theorem lexLt_cons_same (a : Nat) (as bs : List Nat) :
    lexLt (a :: as) (a :: bs) = lexLt as bs := by
  simp [lexLt]

theorem lexLe_cons_same (a : Nat) (as bs : List Nat) :
    lexLe (a :: as) (a :: bs) = lexLe as bs := by
  cases h1 : lexLt as bs <;> cases h2 : as == bs <;>
    simp_all [lexLe, lexLt, List.instBEq, List.beq]

theorem lexLt_asymm : ∀ a b : List Nat, lexLt a b = true → lexLt b a = false := by
  intro a
  induction a with
  | nil =>
    intro b h
    cases b with
    | nil => simp [lexLt] at h
    | cons y ys => simp [lexLt]
  | cons x xs ih =>
    intro b h
    cases b with
    | nil => simp [lexLt] at h
    | cons y ys =>
      simp only [lexLt, Bool.or_eq_true, Bool.and_eq_true, decide_eq_true_eq,
        beq_iff_eq] at h
      simp only [lexLt, Bool.or_eq_false_iff, Bool.and_eq_false_iff,
        decide_eq_false_iff_not, beq_eq_false_iff_ne, ne_eq]
      rcases h with h | ⟨rfl, h⟩
      · exact ⟨by omega, Or.inl (by omega)⟩
      · exact ⟨by omega, Or.inr (ih ys h)⟩

theorem lexLt_total : ∀ a b : List Nat, a ≠ b → lexLt a b = true ∨ lexLt b a = true := by
  intro a
  induction a with
  | nil =>
    intro b h
    cases b with
    | nil => exact absurd rfl h
    | cons y ys => exact Or.inl rfl
  | cons x xs ih =>
    intro b h
    cases b with
    | nil => exact Or.inr rfl
    | cons y ys =>
      by_cases hxy : x = y
      · subst hxy
        have hne : xs ≠ ys := by intro hc; exact h (by rw [hc])
        rcases ih ys hne with h1 | h1
        · exact Or.inl (by simp [lexLt, h1])
        · exact Or.inr (by simp [lexLt, h1])
      · rcases Nat.lt_or_ge x y with h1 | h1
        · exact Or.inl (by simp [lexLt]; omega)
        · exact Or.inr (by simp [lexLt]; omega)

theorem lexLe_of_isPrefixOf : ∀ p k : List Nat, p.isPrefixOf k = true → lexLe p k = true := by
  intro p
  induction p with
  | nil =>
    intro k _
    cases k with
    | nil => rfl
    | cons c cs => rfl
  | cons a as ih =>
    intro k h
    cases k with
    | nil => simp [List.isPrefixOf] at h
    | cons b bs =>
      simp only [List.isPrefixOf, Bool.and_eq_true, beq_iff_eq] at h
      obtain ⟨rfl, h⟩ := h
      rw [lexLe_cons_same]
      exact ih bs h

theorem lexLt_of_branch : ∀ p a b : List Nat, lexLe p a = true →
    p.isPrefixOf a = false → p.isPrefixOf b = true → lexLt b a = true := by
  intro p
  induction p with
  | nil => intro a b _ h2 _; simp at h2
  | cons q ps ih =>
    intro a b h1 h2 h3
    cases b with
    | nil => simp [List.isPrefixOf] at h3
    | cons y bs =>
      simp only [List.isPrefixOf, Bool.and_eq_true, beq_iff_eq] at h3
      obtain ⟨rfl, h3⟩ := h3
      cases a with
      | nil => simp [lexLe, lexLt] at h1
      | cons x as =>
        by_cases hqx : q = x
        · subst hqx
          rw [lexLe_cons_same] at h1
          rw [lexLt_cons_same]
          have h2' : ps.isPrefixOf as = false := by
            by_contra hc
            rw [Bool.not_eq_false] at hc
            simp [List.isPrefixOf, hc] at h2
          exact ih as bs h1 h2' h3
        · rcases Nat.lt_or_ge q x with hlt | hge
          · simp [lexLt]; omega
          · exfalso
            simp only [lexLe, lexLt, Bool.or_eq_true, Bool.and_eq_true,
              decide_eq_true_eq, beq_iff_eq, List.cons.injEq] at h1
            rcases h1 with (h1 | ⟨h1, _⟩) | ⟨h1, _⟩ <;> omega

theorem lexLe_append_low_high : ∀ ks : List Nat, lexLe (ks ++ [0]) (ks ++ [255]) = true := by
  intro ks
  induction ks with
  | nil => rfl
  | cons a ks ih => simpa [lexLe_cons_same] using ih

theorem range_imp_properPre : ∀ (key k : List Nat), lexLe (key ++ [0]) k = true →
    lexLe k (key ++ [255]) = true → key <+: k ∧ key.length < k.length := by
  intro key
  induction key with
  | nil =>
    intro k h1 _h2
    cases k with
    | nil => simp [lexLe, lexLt] at h1
    | cons c cs => exact ⟨List.nil_prefix, by simp⟩
  | cons a ks ih =>
    intro k h1 h2
    cases k with
    | nil => simp [lexLe, lexLt] at h1
    | cons c cs =>
      have hac : a = c := by
        by_contra hne
        rcases Nat.lt_or_ge a c with hlt | hge
        · simp only [List.cons_append, lexLe, lexLt, Bool.or_eq_true, Bool.and_eq_true,
            decide_eq_true_eq, beq_iff_eq, List.cons.injEq] at h2
          rcases h2 with (h2 | ⟨h2, _⟩) | ⟨h2, _⟩ <;> omega
        · simp only [List.cons_append, lexLe, lexLt, Bool.or_eq_true, Bool.and_eq_true,
            decide_eq_true_eq, beq_iff_eq, List.cons.injEq] at h1
          rcases h1 with (h1 | ⟨h1, _⟩) | ⟨h1, _⟩ <;> omega
      subst hac
      rw [List.cons_append, lexLe_cons_same] at h1
      rw [List.cons_append, lexLe_cons_same] at h2
      obtain ⟨hpre, hlen⟩ := ih cs h1 h2
      exact ⟨List.cons_prefix_cons.mpr ⟨rfl, hpre⟩, by simpa using hlen⟩

/-! ### Store lemmas -/

theorem le_foldl_max (l : List (List Nat × List Nat)) :
    ∀ a : Nat, a ≤ l.foldl (fun m kv => max m kv.1.length) a := by
  induction l with
  | nil => intro a; exact Nat.le_refl a
  | cons kv rest ih =>
    intro a
    exact Nat.le_trans (Nat.le_max_left a kv.1.length) (ih (max a kv.1.length))

theorem mem_foldl_max : ∀ (l : List (List Nat × List Nat)) (kv : List Nat × List Nat)
    (a : Nat), kv ∈ l → kv.1.length ≤ l.foldl (fun m kv => max m kv.1.length) a := by
  intro l
  induction l with
  | nil => intro kv a h; cases h
  | cons kv' rest ih =>
    intro kv a h
    rcases List.mem_cons.mp h with h | h
    · subst h
      simp only [List.foldl_cons]
      exact Nat.le_trans (Nat.le_max_right a kv.1.length) (le_foldl_max rest _)
    · simp only [List.foldl_cons]
      exact ih kv _ h

theorem length_le_maxKeyLen {t : Trie} {kv : List Nat × List Nat}
    (h : kv ∈ t.entries) : kv.1.length ≤ maxKeyLen t :=
  mem_foldl_max t.entries kv 0 h

theorem takeWhile_eq_filter_of_sorted {R : List Nat × List Nat → List Nat × List Nat → Prop}
    {q : List Nat × List Nat → Bool} :
    ∀ l : List (List Nat × List Nat), l.Pairwise R →
      (∀ a ∈ l, ∀ b ∈ l, R a b → q a = false → q b = false) →
      l.takeWhile q = l.filter q := by
  intro l
  induction l with
  | nil => intro _ _; rfl
  | cons a rest ih =>
    intro hp hq
    rcases List.pairwise_cons.mp hp with ⟨ha, hrest⟩
    cases hqa : q a with
    | true =>
      rw [List.takeWhile_cons_of_pos hqa, List.filter_cons_of_pos hqa]
      rw [ih hrest fun x hx y hy hxy hqx =>
        hq x (List.mem_cons_of_mem a hx) y (List.mem_cons_of_mem a hy) hxy hqx]
    | false =>
      rw [List.takeWhile_cons_of_neg (by simp [hqa]), List.filter_cons_of_neg (by simp [hqa])]
      have : ∀ x ∈ rest, q x = false := fun x hx =>
        hq a (List.mem_cons_self a rest) x (List.mem_cons_of_mem a hx) (ha x hx) hqa
      rw [List.filter_eq_nil_iff.mpr fun x hx => by simp [this x hx]]

/-! ### Children bitmap lemmas -/

theorem foldl_orbits_of_all_false {c : Nat → Bool} {m : Nat → Nat} :
    ∀ (ns : List Nat) (acc : Nat), (∀ n ∈ ns, c n = false) →
      ns.foldl (fun out n => if c n then out ||| m n else out) acc = acc := by
  intro ns
  induction ns with
  | nil => intro acc _; rfl
  | cons n rest ih =>
    intro acc h
    have hc := h n (List.mem_cons_self n rest)
    simp only [List.foldl_cons, hc, Bool.false_eq_true, if_false]
    exact ih acc fun x hx => h x (List.mem_cons_of_mem n hx)

theorem bitmap_ne_zero_exists {t : Trie} {key : List Nat} {en : Option Nat}
    (h : nodeChildrenBitmap t key en ≠ 0) :
    ∃ kv ∈ t.entries, key.length < kv.1.length := by
  match en with
  | some e =>
    have hex : ∃ n ∈ List.range 16,
        nodeHasChildren t (key ++ [(e <<< 4) ||| n]) none = true := by
      by_contra hc
      push_neg at hc
      exact h (foldl_orbits_of_all_false _ _ fun n hn => by
        have := hc n hn
        simpa using this)
    obtain ⟨n, _, hn⟩ := hex
    simp only [nodeHasChildren, List.any_eq_true, Bool.and_eq_true] at hn
    obtain ⟨kv, hkv, h1, h2⟩ := hn
    obtain ⟨_, hlen⟩ := range_imp_properPre _ _ h1 h2
    refine ⟨kv, hkv, ?_⟩
    simp only [List.length_append, List.length_cons, List.length_nil] at hlen
    omega
  | none =>
    have hex : ∃ n ∈ List.range 16, nodeHasChildren t key (some n) = true := by
      by_contra hc
      push_neg at hc
      exact h (foldl_orbits_of_all_false _ _ fun n hn => by
        have := hc n hn
        simpa using this)
    obtain ⟨n, _, hn⟩ := hex
    simp only [nodeHasChildren, List.any_eq_true, Bool.and_eq_true] at hn
    obtain ⟨kv, hkv, h1, h2⟩ := hn
    obtain ⟨_, hlen⟩ := range_imp_properPre _ _ h1 h2
    exact ⟨kv, hkv, hlen⟩

theorem bitmap_ne_zero_depth {t : Trie} {key : List Nat} {en : Option Nat}
    (h : nodeChildrenBitmap t key en ≠ 0) :
    nibbleDepth key en + 1 ≤ 2 * maxKeyLen t := by
  obtain ⟨kv, hkv, hlen⟩ := bitmap_ne_zero_exists h
  have hm := length_le_maxKeyLen hkv
  unfold nibbleDepth
  cases en <;> simp <;> omega

/-! ### Fuel lemmas for the merkleization recursion -/

theorem optConcat_isSome {g : Nat → Option (List Nat)} :
    ∀ ns, (∀ n ∈ ns, (g n).isSome = true) → (optConcat ns g).isSome = true := by
  intro ns
  induction ns with
  | nil => intro _; rfl
  | cons n rest ih =>
    intro h
    obtain ⟨c, hc⟩ := Option.isSome_iff_exists.mp (h n (List.mem_cons_self n rest))
    obtain ⟨cs, hcs⟩ := Option.isSome_iff_exists.mp
      (ih fun x hx => h x (List.mem_cons_of_mem n hx))
    simp [optConcat, hc, hcs]

theorem optConcat_mono {g g' : Nat → Option (List Nat)}
    (hg : ∀ n v, g n = some v → g' n = some v) :
    ∀ ns cs, optConcat ns g = some cs → optConcat ns g' = some cs := by
  intro ns
  induction ns with
  | nil => intro cs h; exact h
  | cons n rest ih =>
    intro cs h
    cases hc : g n with
    | none => simp [optConcat, hc] at h
    | some c =>
      cases hcs : optConcat rest g with
      | none => simp [optConcat, hc, hcs] at h
      | some cs' =>
        simp only [optConcat, hc, hcs] at h
        simp [optConcat, hg n c hc, ih cs' hcs, ← h]

theorem optConcat_eq_cat {g : Nat → Option (List Nat)} {f : Nat → List Nat} :
    ∀ ns, (∀ n ∈ ns, g n = some (f n)) →
      optConcat ns g = some (catLists (ns.map f)) := by
  intro ns
  induction ns with
  | nil => intro _; rfl
  | cons n rest ih =>
    intro h
    have hc := h n (List.mem_cons_self n rest)
    have hcs := ih fun x hx => h x (List.mem_cons_of_mem n hx)
    simp [optConcat, hc, hcs, catLists]

theorem merkleValueO_succ (H : List Nat → List Nat) (t : Trie) (fuel : Nat)
    (key : List Nat) (en : Option Nat) :
    merkleValueO H t (fuel + 1) key en =
      (nodeValueO H t fuel key en).map (reduceNode H key en) := by
  simp only [merkleValueO, nodeValueO, nodeSubvalueO, Option.map_map]
  rfl

theorem merkleValueO_isSome (H : List Nat → List Nat) (t : Trie) :
    ∀ (fuel : Nat) (key : List Nat) (en : Option Nat), 1 ≤ fuel →
      2 * maxKeyLen t + 2 ≤ fuel + nibbleDepth key en →
      (merkleValueO H t fuel key en).isSome = true := by
  intro fuel
  induction fuel with
  | zero => intro key en h1 _; omega
  | succ f ih =>
    intro key en _ h2
    rw [merkleValueO_succ]
    rw [Option.isSome_map']
    unfold nodeValueO
    rw [Option.isSome_map']
    unfold nodeSubvalueO
    by_cases hbm : nodeChildrenBitmap t key en = 0
    · simp [hbm]
    · have hd := bitmap_ne_zero_depth hbm
      simp only [hbm, if_false, Option.isSome_map']
      apply optConcat_isSome
      intro n _
      cases en with
      | some e =>
        apply ih
        · simp only [nibbleDepth] at hd h2
          omega
        · simp only [nibbleDepth, List.length_append, List.length_cons,
            List.length_nil] at hd h2 ⊢
          omega
      | none =>
        apply ih
        · simp only [nibbleDepth] at hd h2
          omega
        · simp only [nibbleDepth] at hd h2 ⊢
          omega

theorem merkleValueO_mono (H : List Nat → List Nat) (t : Trie) :
    ∀ (fuel : Nat) (key : List Nat) (en : Option Nat) (v : List Nat),
      merkleValueO H t fuel key en = some v →
      merkleValueO H t (fuel + 1) key en = some v := by
  intro fuel
  induction fuel with
  | zero => intro key en v h; simp [merkleValueO] at h
  | succ f ih =>
    intro key en v h
    rw [merkleValueO_succ] at h ⊢
    unfold nodeValueO at h ⊢
    unfold nodeSubvalueO at h ⊢
    by_cases hbm : nodeChildrenBitmap t key en = 0
    · simpa [hbm] using h
    · simp only [hbm, if_false, Option.map_map] at h ⊢
      cases en with
      | some e =>
        cases hoc : optConcat (List.range 16)
            (fun n => merkleValueO H t f (key ++ [(e <<< 4) ||| n]) none) with
        | none => rw [hoc] at h; simp at h
        | some cs =>
          rw [hoc] at h
          rw [optConcat_mono (fun n w hw => ih _ _ _ hw) _ _ hoc]
          exact h
      | none =>
        cases hoc : optConcat (List.range 16)
            (fun n => merkleValueO H t f key (some n)) with
        | none => rw [hoc] at h; simp at h
        | some cs =>
          rw [hoc] at h
          rw [optConcat_mono (fun n w hw => ih _ _ _ hw) _ _ hoc]
          exact h

theorem merkleValueO_fuel_le (H : List Nat → List Nat) (t : Trie) {f1 f2 : Nat}
    (h : f1 ≤ f2) : ∀ (key : List Nat) (en : Option Nat) (v : List Nat),
      merkleValueO H t f1 key en = some v → merkleValueO H t f2 key en = some v := by
  induction h with
  | refl => intro key en v hv; exact hv
  | step _ ih =>
    intro key en v hv
    exact merkleValueO_mono H t _ _ _ _ (ih key en v hv)

theorem merkleValueO_top (H : List Nat → List Nat) (t : Trie) (key : List Nat)
    (en : Option Nat) :
    merkleValueO H t (childFuel t + 1) key en = some (merkleValue H t key en) := by
  have hs := merkleValueO_isSome H t (childFuel t + 1) key en (by omega)
    (by unfold childFuel; omega)
  obtain ⟨v, hv⟩ := Option.isSome_iff_exists.mp hs
  rw [hv]
  unfold merkleValue
  rw [hv]
  rfl

theorem merkleValueO_child (H : List Nat → List Nat) (t : Trie) (key : List Nat)
    (en : Option Nat) (hd : 1 ≤ nibbleDepth key en) :
    merkleValueO H t (childFuel t) key en = some (merkleValue H t key en) := by
  have hs := merkleValueO_isSome H t (childFuel t) key en (by unfold childFuel; omega)
    (by unfold childFuel; omega)
  obtain ⟨v, hv⟩ := Option.isSome_iff_exists.mp hs
  have htop := merkleValueO_mono H t _ _ _ _ hv
  rw [hv]
  unfold merkleValue
  rw [htop]
  rfl

theorem nodeSubvalueO_at (H : List Nat → List Nat) (t : Trie) (key : List Nat)
    (en : Option Nat) :
    nodeSubvalueO H t (childFuel t) key en = some (nodeSubvalue H t key en) := by
  have hs : (nodeSubvalueO H t (childFuel t) key en).isSome = true := by
    unfold nodeSubvalueO
    by_cases hbm : nodeChildrenBitmap t key en = 0
    · simp [hbm]
    · simp only [hbm, if_false, Option.isSome_map']
      apply optConcat_isSome
      intro n _
      cases en with
      | some e =>
        apply merkleValueO_isSome H t (childFuel t) _ _ (by unfold childFuel; omega)
        simp only [nibbleDepth, List.length_append, List.length_cons, List.length_nil]
        unfold childFuel
        omega
      | none =>
        apply merkleValueO_isSome H t (childFuel t) _ _ (by unfold childFuel; omega)
        simp only [nibbleDepth]
        unfold childFuel
        omega
  obtain ⟨v, hv⟩ := Option.isSome_iff_exists.mp hs
  rw [hv]
  unfold nodeSubvalue
  rw [hv]
  rfl

theorem nodeValueO_at (H : List Nat → List Nat) (t : Trie) (key : List Nat)
    (en : Option Nat) :
    nodeValueO H t (childFuel t) key en = some (nodeValue H t key en) := by
  unfold nodeValueO nodeValue nodeValueO
  rw [nodeSubvalueO_at]
  rfl

theorem merkleValue_eq_reduce (H : List Nat → List Nat) (t : Trie) (key : List Nat)
    (en : Option Nat) :
    merkleValue H t key en = reduceNode H key en (nodeValue H t key en) := by
  have h1 := merkleValueO_top H t key en
  rw [merkleValueO_succ, nodeValueO_at] at h1
  simpa using h1.symm

/-! ### Header encoding lemmas -/

theorem lor_low_bits {m x : Nat} (h : x < 64) : (m <<< 6) ||| x = (m <<< 6) + x := by
  rw [Nat.shiftLeft_eq, Nat.mul_comm]
  exact (Nat.mul_add_lt_is_or h m).symm

theorem headerTail_eq : ∀ n : Nat, headerTail n =
    List.replicate ((n - 1) / 255) 255 ++ [n - 255 * ((n - 1) / 255)] := by
  intro n
  induction n using Nat.strong_induction_on with
  | _ n ih =>
    by_cases h : 255 < n
    · rw [headerTail, if_pos h]
      rw [ih (n - 255) (by omega)]
      have h1 : (n - 1) / 255 = (n - 255 - 1) / 255 + 1 := by
        have : n - 1 = (n - 255 - 1) + 255 := by omega
        rw [this, Nat.add_div_right _ (by omega)]
      rw [h1]
      have h2 : (n - 255) - 255 * ((n - 255 - 1) / 255) =
          n - 255 * ((n - 255 - 1) / 255 + 1) := by
        have hle : 255 * ((n - 255 - 1) / 255) ≤ n - 255 - 1 := by
          have := Nat.div_mul_le_self (n - 255 - 1) 255
          omega
        omega
      rw [h2, List.replicate_succ, List.cons_append]
    · rw [headerTail, if_neg h]
      have h1 : (n - 1) / 255 = 0 := Nat.div_eq_of_lt (by omega)
      rw [h1]
      simp

theorem headerEncode_eq_spec (m L : Nat) : headerEncode m L = specHeaderBytes m L := by
  unfold headerEncode specHeaderBytes
  by_cases h : L < 63
  · rw [if_neg (by omega), if_pos h, lor_low_bits (by omega)]
  · rw [if_pos (by omega), if_neg h, lor_low_bits (by omega), headerTail_eq]

theorem twoMsb_eq_spec (t : Trie) (key : List Nat) (en : Option Nat) :
    twoMsb t key en = specHeaderKind (hasStoredValue t key en) (nodeHasChildren t key en) := by
  unfold twoMsb specHeaderKind
  cases hasStoredValue t key en <;> cases nodeHasChildren t key en <;> rfl

/-! ### Sorted insert and permutation lemmas -/

theorem lexLt_trans : ∀ a b c : List Nat, lexLt a b = true → lexLt b c = true →
    lexLt a c = true := by
  intro a
  induction a with
  | nil =>
    intro b c hab hbc
    cases b with
    | nil => simp [lexLt] at hab
    | cons y ys =>
      cases c with
      | nil => simp [lexLt] at hbc
      | cons z zs => rfl
  | cons x xs ih =>
    intro b c hab hbc
    cases b with
    | nil => simp [lexLt] at hab
    | cons y ys =>
      cases c with
      | nil => simp [lexLt] at hbc
      | cons z zs =>
        simp only [lexLt, Bool.or_eq_true, Bool.and_eq_true, decide_eq_true_eq,
          beq_iff_eq] at hab hbc ⊢
        rcases hab with hab | ⟨rfl, hab⟩
        · rcases hbc with hbc | ⟨rfl, hbc⟩
          · exact Or.inl (by omega)
          · exact Or.inl hab
        · rcases hbc with hbc | ⟨rfl, hbc⟩
          · exact Or.inl hbc
          · exact Or.inr ⟨rfl, ih ys zs hab hbc⟩

theorem insertEntry_comm_aux {k1 k2 : List Nat} (v1 v2 : List Nat)
    (hlt : lexLt k1 k2 = true) :
    ∀ l : List (List Nat × List Nat),
      insertEntry k1 v1 (insertEntry k2 v2 l) = insertEntry k2 v2 (insertEntry k1 v1 l) := by
  have hne : k1 ≠ k2 := fun hc => by simp [hc, lexLt_irrefl] at hlt
  have hgt := lexLt_asymm _ _ hlt
  intro l
  induction l with
  | nil =>
    simp only [insertEntry, hlt, if_true, hgt, Bool.false_eq_true, if_false,
      Ne.symm hne, ite_false]
  | cons kv rest ih =>
    obtain ⟨k, v⟩ := kv
    by_cases e1 : k1 = k
    · -- k1 = k; by hlt k2 > k, so k2 inserts after k
      subst e1
      have h2 : lexLt k2 k1 = false := hgt
      have hk2ne : k2 ≠ k1 := Ne.symm hne
      simp only [insertEntry, h2, Bool.false_eq_true, if_false, hk2ne, ite_false,
        lexLt_irrefl, if_true]
    · by_cases e2 : k2 = k
      · -- k2 = k; k1 < k
        subst e2
        simp only [insertEntry, lexLt_irrefl, Bool.false_eq_true, if_false, if_true,
          hlt, hgt, Ne.symm hne, ite_false, ite_true]
      · rcases lexLt_total k1 k e1 with c1 | c1
        · rcases lexLt_total k2 k e2 with c2 | c2
          · -- both smaller than k: k1 before k2 before k
            simp only [insertEntry, c1, c2, if_true, hlt, hgt, Bool.false_eq_true,
              if_false, Ne.symm hne, ite_false]
          · -- k1 < k < k2
            have hk1k : lexLt k2 k = false := lexLt_asymm _ _ c2
            simp only [insertEntry, c1, if_true, hk1k, Bool.false_eq_true, if_false,
              e2, ite_false, hgt, Ne.symm hne]
        · rcases lexLt_total k2 k e2 with c2 | c2
          · -- k2 < k < k1: contradicts k1 < k2
            exfalso
            have := lexLt_trans _ _ _ hlt c2
            have := lexLt_asymm _ _ this
            rw [this] at c1
            exact Bool.false_ne_true c1
          · -- both larger than k: both recurse
            have hj1 : lexLt k1 k = false := lexLt_asymm _ _ c1
            have hj2 : lexLt k2 k = false := lexLt_asymm _ _ c2
            simp only [insertEntry, hj1, hj2, Bool.false_eq_true, if_false, e1, e2,
              ite_false, ih]

theorem insertEntry_comm {k1 k2 : List Nat} (v1 v2 : List Nat) (hne : k1 ≠ k2)
    (l : List (List Nat × List Nat)) :
    insertEntry k1 v1 (insertEntry k2 v2 l) = insertEntry k2 v2 (insertEntry k1 v1 l) := by
  rcases lexLt_total k1 k2 hne with h | h
  · exact insertEntry_comm_aux v1 v2 h l
  · exact (insertEntry_comm_aux v2 v1 h l).symm

theorem foldl_insert_of_perm {l1 l2 : List (List Nat × List Nat)} (hp : l1.Perm l2)
    (hd : l1.Pairwise fun a b => a.1 ≠ b.1) :
    ∀ t : Trie, l1.foldl (fun t kv => t.insert kv.1 kv.2) t =
      l2.foldl (fun t kv => t.insert kv.1 kv.2) t := by
  induction hp with
  | nil => intro t; rfl
  | cons x _ ih =>
    intro t
    rcases List.pairwise_cons.mp hd with ⟨_, hd'⟩
    simp only [List.foldl_cons]
    exact ih hd' _
  | swap x y l =>
    intro t
    rcases List.pairwise_cons.mp hd with ⟨hy, _⟩
    have hne : y.1 ≠ x.1 := hy x (List.mem_cons_self x l)
    simp only [List.foldl_cons]
    have : (t.insert y.1 y.2).insert x.1 x.2 = (t.insert x.1 x.2).insert y.1 y.2 := by
      simp only [Trie.insert]
      rw [insertEntry_comm _ _ (Ne.symm hne)]
    rw [this]
  | trans h12 _ ih1 ih2 =>
    intro t
    rw [ih1 hd t]
    exact ih2 ((h12.pairwise_iff fun h => h.symm).mp hd) t

/-! ### Prefix removal lemmas -/

theorem removePre_toRemove (t : Trie)
    (hs : t.entries.Pairwise fun a b => lexLt a.1 b.1 = true) (pre : List Nat) :
    ((t.entries.filter fun kv => lexLe pre kv.1).takeWhile
        fun kv => pre.isPrefixOf kv.1) =
      t.entries.filter fun kv => pre.isPrefixOf kv.1 := by
  rw [takeWhile_eq_filter_of_sorted _ (List.Pairwise.filter _ hs) ?cond]
  case cond =>
    intro a ha b hb hab hqa
    by_contra hc
    rw [Bool.not_eq_false] at hc
    have hle : lexLe pre a.1 = true := (List.mem_filter.mp ha).2
    have := lexLt_of_branch pre a.1 b.1 hle hqa hc
    have := lexLt_asymm _ _ this
    rw [this] at hab
    exact Bool.false_ne_true hab
  rw [List.filter_filter]
  apply List.filter_congr
  intro kv _
  cases hq : pre.isPrefixOf kv.1 with
  | true => simp [lexLe_of_isPrefixOf _ _ hq]
  | false => simp

theorem removePre_mem (t : Trie)
    (hs : t.entries.Pairwise fun a b => lexLt a.1 b.1 = true)
    (pre : List Nat) (kv : List Nat × List Nat) :
    kv ∈ (t.removePre pre).entries ↔ kv ∈ t.entries ∧ ¬ pre <+: kv.1 := by
  by_cases hpre : pre = []
  · subst hpre
    simp [Trie.removePre, Trie.clear, List.nil_prefix]
  · unfold Trie.removePre
    rw [if_neg hpre]
    simp only [removePre_toRemove t hs pre]
    rw [List.mem_filter]
    constructor
    · rintro ⟨hmem, hcon⟩
      refine ⟨hmem, fun hp => ?_⟩
      rw [Bool.not_eq_eq_eq_not, Bool.not_true, List.contains_eq_any_beq] at hcon
      have : (List.map Prod.fst (t.entries.filter fun kv => pre.isPrefixOf kv.1)).any
          (kv.1 == ·) = true := by
        rw [List.any_eq_true]
        refine ⟨kv.1, List.mem_map.mpr ⟨kv, List.mem_filter.mpr ⟨hmem, ?_⟩, rfl⟩, by simp⟩
        rw [List.isPrefixOf_iff_prefix]
        exact hp
      rw [this] at hcon
      exact absurd hcon (by simp)
    · rintro ⟨hmem, hp⟩
      refine ⟨hmem, ?_⟩
      rw [Bool.not_eq_eq_eq_not, Bool.not_true, List.contains_eq_any_beq]
      rw [List.any_eq_false]
      rintro x hx
      rw [List.mem_map] at hx
      obtain ⟨kv', hkv', rfl⟩ := hx
      rw [List.mem_filter] at hkv'
      rw [beq_iff_eq]
      intro hc
      apply hp
      rw [← List.isPrefixOf_iff_prefix, hc]
      exact hkv'.2

/-! ### Subvalue characterization -/

theorem nodeSubvalue_eq (H : List Nat → List Nat) (t : Trie) (key : List Nat)
    (en : Option Nat) :
    nodeSubvalue H t key en =
      if nodeChildrenBitmap t key en = 0 then encodeScaleVec (storedValueAt t key en)
      else u16le (nodeChildrenBitmap t key en) ++
        catLists ((List.range 16).map (childMerkleValue H t key en)) ++
        encodeScaleVec (storedValueAt t key en) := by
  have h := nodeSubvalueO_at H t key en
  unfold nodeSubvalueO at h
  by_cases hbm : nodeChildrenBitmap t key en = 0
  · rw [if_pos hbm] at h
    rw [if_pos hbm]
    exact (Option.some.injEq _ _ ▸ h).symm
  · rw [if_neg hbm] at h
    rw [if_neg hbm]
    cases en with
    | some e =>
      rw [optConcat_eq_cat (f := fun n => childMerkleValue H t key (some e) n)
        (List.range 16) ?hc] at h
      case hc =>
        intro n _
        exact merkleValueO_child H t _ _ (by simp [nibbleDepth]; omega)
      simp only [Option.map_some', Option.some.injEq] at h
      exact h.symm
    | none =>
      rw [optConcat_eq_cat (f := fun n => childMerkleValue H t key none n)
        (List.range 16) ?hc2] at h
      case hc2 =>
        intro n _
        exact merkleValueO_child H t _ _ (by simp [nibbleDepth])
      simp only [Option.map_some', Option.some.injEq] at h
      exact h.symm

theorem nodeValue_eq (H : List Nat → List Nat) (t : Trie) (key : List Nat)
    (en : Option Nat) :
    nodeValue H t key en = prependHeaderPk t key en (nodeSubvalue H t key en) := by
  have h := nodeValueO_at H t key en
  unfold nodeValueO at h
  rw [nodeSubvalueO_at] at h
  simpa using h.symm

theorem rootMerkleValue_eq_hash (H : List Nat → List Nat) (t : Trie) :
    rootMerkleValue H t = H (nodeValue H t [] none) := by
  unfold rootMerkleValue
  rw [merkleValue_eq_reduce]
  unfold reduceNode
  simp

/-! ### Claim theorems -/

/-- C1: for every trie state, `merkle_value` of the root address (empty key,
no extra nibble) is the hash of the node encoding regardless of its length;
for every non-root address, if the node encoding is strictly shorter than 32
bytes the result is the encoding right-aligned into a 32-byte buffer with
leading zero bytes, and otherwise (length ≥ 32) it is the hash of the
encoding; the result is always 32 bytes long. -/
theorem c1_merkle_value_reduction (H : List Nat → List Nat) (t : Trie) (key : List Nat)
    (en : Option Nat) (hH : ∀ x, (H x).length = 32) :
    (key = [] ∧ en = none → merkleValue H t key en = H (nodeValue H t key en)) ∧
    (¬(key = [] ∧ en = none) → (nodeValue H t key en).length < 32 →
      merkleValue H t key en =
        List.replicate (32 - (nodeValue H t key en).length) 0 ++ nodeValue H t key en) ∧
    (¬(key = [] ∧ en = none) → 32 ≤ (nodeValue H t key en).length →
      merkleValue H t key en = H (nodeValue H t key en)) ∧
    (merkleValue H t key en).length = 32 := by
  rw [merkleValue_eq_reduce]
  unfold reduceNode
  refine ⟨?_, ?_, ?_, ?_⟩
  · rintro ⟨rfl, rfl⟩
    simp
  · intro hroot hlen
    rw [if_neg]
    rw [Bool.or_eq_true, not_or]
    constructor
    · rw [Bool.and_eq_true, List.isEmpty_iff, Option.isNone_iff_eq_none]
      exact fun hc => hroot ⟨hc.1, hc.2⟩
    · simp
      omega
  · intro _ hlen
    rw [if_pos]
    rw [Bool.or_eq_true]
    exact Or.inr (by simpa using hlen)
  · by_cases hc : (key.isEmpty && en.isNone ||
        decide (32 ≤ (nodeValue H t key en).length)) = true
    · rw [if_pos hc]
      exact hH _
    · rw [if_neg hc]
      rw [Bool.or_eq_true, not_or] at hc
      have : ¬ 32 ≤ (nodeValue H t key en).length := by
        intro h
        exact hc.2 (by simpa using h)
      rw [List.length_append, List.length_replicate]
      omega

/-- Closed instance of C1: the non-root leaf node of `trieOne` has a 3-byte
encoding and its merkle value is that encoding left-padded with 29 zero
bytes. -/
theorem c1_merkle_value_reduction_witness :
    ¬(([18] : List Nat) = [] ∧ (none : Option Nat) = none) ∧
    merkleValue modelHash trieOne [18] none =
      List.replicate (32 - (nodeValue modelHash trieOne [18] none).length) 0 ++
        nodeValue modelHash trieOne [18] none :=
  ⟨by simp, (c1_merkle_value_reduction modelHash trieOne [18] none
      (fun x => by simp [modelHash])).2.1 (by simp) (by decide)⟩

/-- C2: the claim says `node_partial_key_nibbles` produces the longest common
nibble-prefix of all stored keys extending the address, beyond the address's
depth.  The source function is a stub returning the empty vector (its body is
`Vec::new()` with a `TODO: FIXME: stub` comment): on the store `{0x12 ↦ 0x34}`
the root's partial key should be the nibble sequence `[1, 2]` but the code
returns `[]`. -/
theorem c2_stub_key_nibbles :
    specPartialKeyNibbles trieOne [] none = [1, 2] ∧
    nodePartialKeyNibbles trieOne [] none = [] := by
  constructor
  · decide
  · rfl

/-- C3 (amended): for every trie state and node address, if the children
bitmap is zero the subvalue is exactly the length-prefixed encoding of the
stored value (of the empty byte string when there is none); if the bitmap is
non-zero the subvalue is the 2-byte little-endian bitmap, followed by, for
each nibble 0–15 in ascending order and never skipping any slot, the raw 32
bytes of that child's merkle value (SCALE fixed-size array encoding, no
length prefix), followed by the length-prefixed encoding of the node's own
stored value. -/
theorem c3_subvalue_layout (H : List Nat → List Nat) (t : Trie) (key : List Nat)
    (en : Option Nat) :
    (nodeChildrenBitmap t key en = 0 →
      nodeSubvalue H t key en = encodeScaleVec (storedValueAt t key en)) ∧
    (nodeChildrenBitmap t key en ≠ 0 →
      nodeSubvalue H t key en =
        u16le (nodeChildrenBitmap t key en) ++
        catLists ((List.range 16).map (childMerkleValue H t key en)) ++
        encodeScaleVec (storedValueAt t key en)) := by
  constructor
  · intro h
    rw [nodeSubvalue_eq, if_pos h]
  · intro h
    rw [nodeSubvalue_eq, if_neg h]

/-- Closed instance of the amended C3 at the root of `trieOne`, whose
children bitmap is non-zero. -/
theorem c3_subvalue_layout_witness :
    nodeChildrenBitmap trieOne [] none ≠ 0 ∧
    nodeSubvalue modelHash trieOne [] none =
      u16le (nodeChildrenBitmap trieOne [] none) ++
      catLists ((List.range 16).map (childMerkleValue modelHash trieOne [] none)) ++
      encodeScaleVec (storedValueAt trieOne [] none) :=
  ⟨by decide, (c3_subvalue_layout modelHash trieOne [] none).2 (by decide)⟩

/-- Counterexample to C3 as stated: the children merkle values are appended
raw (SCALE fixed-size array encoding has no length prefix), not
length-prefixed, so the claimed layout differs at the root of `trieOne`;
and the no-children branch is selected by a zero children *bitmap*, not by
`has_children`: at the address `([], Some 1)` of `trieOne` the node has
children per `node_has_children`, yet its subvalue is the bare encoded
empty value. -/
theorem c3_counterexample :
    nodeSubvalue modelHash trieOne [] none ≠ claimSubvalueC3 modelHash trieOne [] none ∧
    nodeSubvalue modelHash trieOne [] (some 1) ≠
      claimSubvalueC3 modelHash trieOne [] (some 1) := by
  constructor
  · decide
  · decide

/-- C4: the claim says bit `15 - n` of the children bitmap is set iff the
child subtree at nibble `n` is non-empty.  On the store `{0x10 ↦ 0x00}` the
single stored key has nibble sequence `[1, 0]`, so only nibble 1's subtree
under the root is non-empty; yet the bitmap of the root address is `0xFFFF`
(all 16 bits set), because the nibble-free branch of
`node_children_bitmap` calls `node_has_children(key, Some n)` which ignores
its nibble argument.  The little-endian serialization itself is `[255, 255]`
here. -/
theorem c4_bitmap_bug :
    nodeChildrenBitmap trieTen [] none = 65535 ∧
    trieTen.entries = [([16], [0])] ∧
    nibblesOf [16] = [1, 0] ∧
    u16le (nodeChildrenBitmap trieTen [] none) = [255, 255] := by
  refine ⟨by decide, by decide, by decide, by decide⟩

/-- C5: for every trie state, key and extra nibble, `node_has_children`
returns true iff the store holds an entry whose key lies (in byte-
lexicographic order) in the inclusive range from `key ‖ 0x00` to
`key ‖ 0xFF`, and the result does not depend on the extra nibble argument. -/
theorem c5_has_children_range (t : Trie) (key : List Nat) (en en' : Option Nat) :
    (nodeHasChildren t key en = true ↔
      ∃ kv ∈ t.entries, lexLe (key ++ [0]) kv.1 = true ∧
        lexLe kv.1 (key ++ [255]) = true) ∧
    nodeHasChildren t key en = nodeHasChildren t key en' := by
  constructor
  · simp [nodeHasChildren, List.any_eq_true]
  · rfl

/-- C6: the node header consists of the kind bits (00 no value/children,
01 value only, 10 children only, 11 both) in the two most significant bits,
and the partial-key nibble count `L` encoded as a single byte
`(kind << 6) | L` when `L < 63`, and otherwise as `(kind << 6) | 63`
followed — after subtracting 63 — by one byte 255 for each time 255 can be
subtracted while the remainder stays above 255, and a final byte holding the
remainder.  The second conjunct checks the length encoding for every `kind`
and `L`, the first that `node_header` is that encoding of the node's kind
and partial-key length. -/
theorem c6_node_header (t : Trie) (key : List Nat) (en : Option Nat) (kind L : Nat) :
    nodeHeader t key en =
      specHeaderBytes (specHeaderKind (hasStoredValue t key en) (nodeHasChildren t key en))
        (nodePartialKeyNibbles t key en).length ∧
    headerEncode kind L = specHeaderBytes kind L := by
  refine ⟨?_, headerEncode_eq_spec kind L⟩
  rw [nodeHeader, twoMsb_eq_spec, headerEncode_eq_spec]

/-- C7: the root merkle value of the empty trie is the hash of the single
header byte `0x00` followed by the subvalue of the valueless, childless root
node — the length-prefixed encoding of the empty byte string, i.e. the
single byte `0x00` — hashed even though the 2-byte encoding is far below the
32-byte threshold. -/
theorem c7_empty_trie_root (H : List Nat → List Nat) :
    rootMerkleValue H Trie.new = H ([0] ++ nodeSubvalue H Trie.new [] none) ∧
    nodeSubvalue H Trie.new [] none = encodeScaleVec [] ∧
    nodeHeader Trie.new [] none = [0] ∧
    ([0] ++ nodeSubvalue H Trie.new [] none).length < 32 := by
  refine ⟨rfl, rfl, rfl, ?_⟩
  rw [show nodeSubvalue H Trie.new [] none = encodeScaleVec [] from rfl]
  decide

/-- C8: for a fixed set of entries with pairwise distinct keys,
`root_merkle_value` is the same on every call (it is a pure function of the
store) and independent of the order in which the entries were inserted, and
the digest is 32 bytes long. -/
theorem c8_root_insertion_order (H : List Nat → List Nat)
    (l1 l2 : List (List Nat × List Nat)) (hp : l1.Perm l2)
    (hd : l1.Pairwise fun a b => a.1 ≠ b.1) (hH : ∀ x, (H x).length = 32) :
    rootMerkleValue H (Trie.fromList l1) = rootMerkleValue H (Trie.fromList l2) ∧
    rootMerkleValue H (Trie.fromList l1) = rootMerkleValue H (Trie.fromList l1) ∧
    (rootMerkleValue H (Trie.fromList l1)).length = 32 := by
  refine ⟨?_, rfl, ?_⟩
  · unfold Trie.fromList
    rw [foldl_insert_of_perm hp hd]
  · rw [rootMerkleValue_eq_hash]
    exact hH _

/-- Closed instance of C8: two two-entry insertion orders produce the same
root digest. -/
theorem c8_root_insertion_order_witness :
    ([([1], [2]), ([3], [4])].Perm [([3], [4]), ([1], [2])]) ∧
    rootMerkleValue modelHash (Trie.fromList [([1], [2]), ([3], [4])]) =
      rootMerkleValue modelHash (Trie.fromList [([3], [4]), ([1], [2])]) :=
  ⟨by decide, (c8_root_insertion_order modelHash _ _ (by decide) (by decide)
      (fun x => by simp [modelHash])).1⟩

/-- C9: on a sorted store, `remove_prefix` keeps exactly the entries whose
key does not start with the given byte string (an entry equal to it is also
removed), and the empty byte string clears the trie. -/
theorem c9_remove_pre (t : Trie) (pre : List Nat)
    (hs : t.entries.Pairwise fun a b => lexLt a.1 b.1 = true) :
    t.removePre [] = t.clear ∧
    ∀ kv : List Nat × List Nat,
      kv ∈ (t.removePre pre).entries ↔ kv ∈ t.entries ∧ ¬ pre <+: kv.1 := by
  exact ⟨rfl, fun kv => removePre_mem t hs pre kv⟩

/-- Closed instance of C9: removing the byte string `[1]` from `trieThree`
drops the entry keyed `[1, 5]` because its key extends `[1]`. -/
theorem c9_remove_pre_witness :
    (trieThree.entries.Pairwise fun a b => lexLt a.1 b.1 = true) ∧
    (([1, 5], [11]) ∈ (trieThree.removePre [1]).entries ↔
      ([1, 5], [11]) ∈ trieThree.entries ∧ ¬ [1] <+: [1, 5]) :=
  ⟨by decide, (c9_remove_pre trieThree [1] (by decide)).2 ([1, 5], [11])⟩

/-- C10: the mutually recursive `merkle_value` → `node_subvalue` →
`merkle_value` computation terminates on every finite store: with any fuel
of at least `childFuel t + 1` the fuelled computation returns a value, and
always the same one, so `merkle_value` is a total function of the store
contents and the address. -/
theorem c10_merkle_value_total (H : List Nat → List Nat) (t : Trie) (key : List Nat)
    (en : Option Nat) (fuel : Nat) (hf : childFuel t + 1 ≤ fuel) :
    merkleValueO H t fuel key en = some (merkleValue H t key en) :=
  merkleValueO_fuel_le H t hf key en _ (merkleValueO_top H t key en)

/-- Closed instance of C10: fuel 5 exceeds the bound for `trieOne` and the
computation returns the total function's value. -/
theorem c10_merkle_value_total_witness :
    childFuel trieOne + 1 ≤ 5 ∧
    merkleValueO modelHash trieOne 5 [] none = some (merkleValue modelHash trieOne [] none) :=
  ⟨by decide, c10_merkle_value_total modelHash trieOne [] none 5 (by decide)⟩
